import Mathlib

/-!
Verification of the variable-reference linker
(src/crates/turbopack/src/analyzer/linker.rs).

The linker resolves variable references inside an expression value against a
read-only reference graph, detecting cycles with a per-path tracker
(circle_stack), memoizing fully-closed resolutions in a shared cache, and
applying a caller-supplied simplification visitor to a fixpoint.

The embedding is sequential and state-passing: the cycle tracker, the cache
and an event log are threaded through the recursion in the order the Rust
code performs the corresponding operations.  Recursion depth is bounded by an
explicit fuel parameter (exhaustion is the distinguished error
Err.outOfFuel); a theorem below shows that for every graph and root value
some fuel suffices, which is the termination argument for the unbounded
Rust recursion.
-/

namespace Linker

/-- Variable identities (swc Id values: name + scope) are opaque hashable
keys; modelled as strings. -/
abbrev Id := String

/-- Modelled from the spec: the concrete JsValue variant set is external to
this file's source (§2 value model).  It has a variable-reference variant,
an unknown variant carrying an optional origin and a reason string, and
otherwise atomic or composite variants; one atomic (Constant) and one
composite (Composite, an ordered list of children) variant stand for "any
number of concrete/composite variants". -/
inductive JsValue where
  | Variable : Id → JsValue
  | Unknown : Option JsValue → String → JsValue
  | Constant : Int → JsValue
  | Composite : List JsValue → JsValue

/-- Modelled from the spec: structural fan-out visits the immediate children
of a composite value; variable, unknown and atomic values have none. -/
def childrenOf : JsValue → List JsValue
  | .Composite cs => cs
  | _ => []

/-- Modelled from the spec: rebuild a value from its (possibly transformed)
immediate children, as for_each_children_async does in place. -/
def withChildren : JsValue → List JsValue → JsValue
  | .Composite _, cs => .Composite cs
  | v, _ => v

/-- Modelled from the spec: deep canonicalization is an external capability
whose domain-specific rules are out of scope (§1); modelled as the
identity. -/
def normalize (v : JsValue) : JsValue := v

/-- Modelled from the spec: top-level-only canonicalization, external,
modelled as the identity. -/
def normalizeShallow (v : JsValue) : JsValue := v

/-- The unknown value produced when a circular reference is short-circuited
(linker.rs lines 79-82). -/
def unknownCircular (var : Id) : JsValue :=
  .Unknown (some (.Variable var)) "circular variable reference"

/-- The unknown value substituted for a variable with no entry in the
reference graph (linker.rs lines 95-98). -/
def unknownNoValue (var : Id) : JsValue :=
  .Unknown (some (.Variable var)) "no value of this variable analysed"

/-- The read-only reference graph: a map from variable identity to the
expression bound to it (VarGraph.values). -/
structure VarGraph where
  values : List (Id × JsValue)

/-- graph.values.get(&var) -/
def graphGet (g : VarGraph) (x : Id) : Option JsValue :=
  (g.values.find? (fun p => p.1 == x)).map (fun p => p.2)

/-- The resolution cache (LinkCache.inner), a map from identity to resolved
value. -/
abbrev LinkCache := List (Id × JsValue)

/-- LinkCache.get -/
def cacheGet (c : LinkCache) (x : Id) : Option JsValue :=
  (c.find? (fun p => p.1 == x)).map (fun p => p.2)

/-- LinkCache.store (HashMap.insert: overwrites any previous entry). -/
def cacheStore (x : Id) (v : JsValue) (c : LinkCache) : LinkCache :=
  (x, v) :: c.filter (fun p => !(p.1 == x))

/-- The caller-supplied simplification visitor: value in, simplified value
plus changed-flag out, or a failure. -/
abbrev Visitor := JsValue → Except String (JsValue × Bool)

/-- Failures of the linker: a propagated visitor failure, or exhaustion of
the explicit recursion/loop fuel of the embedding. -/
inductive Err where
  | outOfFuel : Err
  | visitorError : String → Err
deriving DecidableEq

/-- Observable events of one resolution, in the order the code performs
them: cycle-tracker insertion/removal of an identity, and the
cache-admission outcome (write or skip) for an identity. -/
inductive Event where
  | trackerInsert : Id → Event
  | trackerRemove : Id → Event
  | cacheWrite : Id → Event
  | cacheNoWrite : Id → Event
deriving DecidableEq, BEq

/-- Result of one link_internal invocation: the Result value (resolved value
plus optional replaced-circular-reference set), the cycle tracker after the
call, the cache after the call, and the events the call performed. -/
structure LinkOut where
  res : Except Err (JsValue × Option (List Id))
  stack : List Id
  cache : LinkCache
  events : List Event

/-- The visitor fixpoint loop (linker.rs lines 165-174): apply the visitor;
on a reported change, shallow-normalize and loop, otherwise stop.  The loop
has no cap in the source; the fuel bounds it in the embedding and
exhaustion is Err.outOfFuel.  Returns the final value and whether any
iteration reported a change. -/
def visitorLoop (vis : Visitor) : Nat → JsValue → Except Err (JsValue × Bool)
  | 0, _ => .error .outOfFuel
  | n + 1, v =>
    match vis v with
    | .error msg => .error (.visitorError msg)
    | .ok (v1, false) => .ok (v1, false)
    | .ok (v1, true) =>
      match visitorLoop vis n (normalizeShallow v1) with
      | .error e => .error e
      | .ok (v2, _) => .ok (v2, true)

/-- The tail of the variable branch of link_internal (linker.rs lines
100-114): given the result of recursively resolving the bound expression,
strip this identity from the reported replaced-reference set, decide cache
admission (store when no set was reported or the stripped set is empty),
and only then remove the identity from the cycle tracker.  On failure of
the recursive resolution the failure propagates at once: no admission, no
tracker removal. -/
def varFinish (var : Id) (inner : LinkOut) : LinkOut :=
  match inner.res with
  | .error e => ⟨.error e, inner.stack, inner.cache, .trackerInsert var :: inner.events⟩
  | .ok (v, none) =>
      ⟨.ok (v, some []), inner.stack.erase var, cacheStore var v inner.cache,
        .trackerInsert var :: inner.events ++ [.cacheWrite var, .trackerRemove var]⟩
  | .ok (v, some s) =>
      let s' := s.filter (fun x => !(x == var))
      if s'.isEmpty then
        ⟨.ok (v, some s'), inner.stack.erase var, cacheStore var v inner.cache,
          .trackerInsert var :: inner.events ++ [.cacheWrite var, .trackerRemove var]⟩
      else
        ⟨.ok (v, some s'), inner.stack.erase var, inner.cache,
          .trackerInsert var :: inner.events ++ [.cacheNoWrite var, .trackerRemove var]⟩

/-- Result of resolving the children of one composite node: transformed
children, any-child-modified flag, merged replaced-reference set, plus the
threaded tracker, cache and events. -/
structure ChildrenOut where
  res : Except Err (List JsValue × Bool × List Id)
  stack : List Id
  cache : LinkCache
  events : List Event

/-- The child fan-out (child_visitor plus for_each_children_async, linker.rs
lines 118-158).  Modelled from the spec for the part not under src/
(for_each_children_async itself): per §5 the cycle tracker is loaned to
exactly one child at a time, each child checking out the current state and
checking its restored state back in before the next child runs, so the
fan-out is modelled as a sequential left-to-right fold that threads the
tracker and the cache.  Per child (child_visitor): recursively resolve it;
on success, the child counts as modified exactly when a replaced-reference
set was reported, in which case the child value is shallow-normalized and
the set is merged into the accumulator; any failure aborts the fold. -/
def linkChildren (f : JsValue → List Id → LinkCache → LinkOut) :
    List JsValue → List Id → LinkCache → ChildrenOut
  | [], stack, cache => ⟨.ok ([], false, []), stack, cache, []⟩
  | c :: cs, stack, cache =>
    let out := f c stack cache
    match out.res with
    | .error e => ⟨.error e, out.stack, out.cache, out.events⟩
    | .ok (v, r) =>
      let rest := linkChildren f cs out.stack out.cache
      match rest.res with
      | .error e => ⟨.error e, rest.stack, rest.cache, out.events ++ rest.events⟩
      | .ok (vs, m, rcr) =>
          ⟨.ok ((if r.isSome then normalizeShallow v else v) :: vs,
                r.isSome || m, r.getD [] ++ rcr),
            rest.stack, rest.cache, out.events ++ rest.events⟩

/-- The non-variable branch of link_internal (linker.rs lines 117-186):
resolve all children, shallow-normalize the node if any child was modified,
run the visitor fixpoint loop, and report Some(merged replaced set) exactly
when the node was modified by either phase, None otherwise. -/
def compositeStep (vis : Visitor) (vfuel : Nat)
    (f : JsValue → List Id → LinkCache → LinkOut)
    (val : JsValue) (stack : List Id) (cache : LinkCache) : LinkOut :=
  let cout := linkChildren f (childrenOf val) stack cache
  match cout.res with
  | .error e => ⟨.error e, cout.stack, cout.cache, cout.events⟩
  | .ok (vs, anyMod, rcr) =>
    let val1 := if anyMod then normalizeShallow (withChildren val vs) else withChildren val vs
    match visitorLoop vis vfuel val1 with
    | .error e => ⟨.error e, cout.stack, cout.cache, cout.events⟩
    | .ok (val2, m) =>
        ⟨.ok (val2, if anyMod || m then some rcr else none),
          cout.stack, cout.cache, cout.events⟩

/-- link_internal (linker.rs lines 63-188).  Variable branch: a cycle-tracker
hit returns the circular unknown with replaced set {var}; a cache hit
returns the cached value with an empty replaced set; otherwise the identity
is pushed on the tracker, the bound expression (or the no-value unknown if
the graph has no entry) is recursively resolved, and varFinish performs
admission and tracker removal.  Every other value takes the composite
path. -/
def linkInternal (g : VarGraph) (vis : Visitor) (vfuel : Nat) :
    Nat → JsValue → List Id → LinkCache → LinkOut
  | 0, _, stack, cache => ⟨.error .outOfFuel, stack, cache, []⟩
  | fuel + 1, .Variable var, stack, cache =>
    if stack.contains var then
      ⟨.ok (unknownCircular var, some [var]), stack, cache, []⟩
    else
      match cacheGet cache var with
      | some v => ⟨.ok (v, some []), stack, cache, []⟩
      | none =>
        varFinish var
          (linkInternal g vis vfuel fuel ((graphGet g var).getD (unknownNoValue var))
            (var :: stack) cache)
  | fuel + 1, val, stack, cache =>
    compositeStep vis vfuel
      (fun c st ca => linkInternal g vis vfuel fuel c st ca) val stack cache

/-- link (linker.rs lines 34-47): deep-normalize the root, resolve it with
an empty cycle tracker, drop the replaced-reference component.  Returns the
result together with the final cache. -/
def link (g : VarGraph) (vis : Visitor) (vfuel fuel : Nat)
    (val : JsValue) (cache : LinkCache) : Except Err JsValue × LinkCache :=
  let out := linkInternal g vis vfuel fuel (normalize val) [] cache
  (out.res.map (fun p => p.1), out.cache)

/-- The visitor that never changes anything (the identity rule set). -/
def idVisitor : Visitor := fun v => .ok (v, false)

/-! ### Basic cache lemmas -/

theorem cacheGet_store_self (x : Id) (v : JsValue) (c : LinkCache) :
    cacheGet (cacheStore x v c) x = some v := by
  simp [cacheGet, cacheStore, List.find?_cons]

theorem find?_filter_ne (x y : Id) (c : LinkCache) (h : y ≠ x) :
    (c.filter (fun p => !(p.1 == x))).find? (fun p => p.1 == y)
      = c.find? (fun p => p.1 == y) := by
  induction c with
  | nil => rfl
  | cons p c ih =>
    cases hpx : (p.1 == x) with
    | true =>
      have hxeq : p.1 = x := by simpa using hpx
      have hpy : (p.1 == y) = false := by
        simp only [hxeq, beq_eq_false_iff_ne]
        exact Ne.symm h
      simp [List.filter_cons, List.find?_cons, hpx, hpy, ih]
    | false =>
      cases hpy : (p.1 == y) with
      | true => simp [List.filter_cons, List.find?_cons, hpx, hpy]
      | false => simp [List.filter_cons, List.find?_cons, hpx, hpy, ih]

theorem cacheGet_store_ne (x y : Id) (v : JsValue) (c : LinkCache) (h : y ≠ x) :
    cacheGet (cacheStore x v c) y = cacheGet c y := by
  have hxy : (x == y) = false := by
    simp only [beq_eq_false_iff_ne]
    exact Ne.symm h
  unfold cacheGet cacheStore
  rw [List.find?_cons]
  simp only [hxy]
  rw [find?_filter_ne x y c h]

theorem erase_cons_self (a : Id) (l : List Id) : (a :: l).erase a = l := by
  simp [List.erase_cons]

/-! ### The cycle tracker is restored by balanced push/pop

On every successful return, link_internal leaves the cycle tracker exactly
as it found it: the variable branch pushes an identity and pops it again,
and the child fan-out hands each child the state restored by the previous
child. -/

theorem linkChildren_stack_eq (f : JsValue → List Id → LinkCache → LinkOut)
    (hf : ∀ c st ca p, (f c st ca).res = .ok p → (f c st ca).stack = st) :
    ∀ (cs : List JsValue) (stack : List Id) (cache : LinkCache) q,
      (linkChildren f cs stack cache).res = .ok q →
      (linkChildren f cs stack cache).stack = stack := by
  intro cs
  induction cs with
  | nil => intro stack cache q _; simp [linkChildren]
  | cons c cs ih =>
    intro stack cache q h
    simp only [linkChildren] at h ⊢
    cases hout : (f c stack cache).res with
    | error e => simp [hout] at h
    | ok p =>
      obtain ⟨v, r⟩ := p
      have hst := hf c stack cache _ hout
      cases hrest : (linkChildren f cs (f c stack cache).stack (f c stack cache).cache).res with
      | error e => simp [hout, hrest] at h
      | ok q2 =>
        obtain ⟨vs, m, rcr⟩ := q2
        have h2 := ih (f c stack cache).stack (f c stack cache).cache _ hrest
        simp only [hout, hrest]
        exact h2.trans hst

theorem compositeStep_stack_eq (vis : Visitor) (vfuel : Nat)
    (f : JsValue → List Id → LinkCache → LinkOut)
    (hf : ∀ c st ca p, (f c st ca).res = .ok p → (f c st ca).stack = st)
    (val : JsValue) (stack : List Id) (cache : LinkCache) (p)
    (h : (compositeStep vis vfuel f val stack cache).res = .ok p) :
    (compositeStep vis vfuel f val stack cache).stack = stack := by
  simp only [compositeStep] at h ⊢
  cases hcs : (linkChildren f (childrenOf val) stack cache).res with
  | error e => simp [hcs] at h
  | ok q =>
    obtain ⟨vs, anyMod, rcr⟩ := q
    have h2 := linkChildren_stack_eq f hf (childrenOf val) stack cache _ hcs
    cases hvl : visitorLoop vis vfuel
        (if anyMod then normalizeShallow (withChildren val vs) else withChildren val vs) with
    | error e => simp [hcs, hvl] at h
    | ok q2 => simp [hcs, hvl, h2]

theorem stack_preserved (g : VarGraph) (vis : Visitor) (vfuel : Nat) :
    ∀ (fuel : Nat) (val : JsValue) (stack : List Id) (cache : LinkCache) p,
      (linkInternal g vis vfuel fuel val stack cache).res = .ok p →
      (linkInternal g vis vfuel fuel val stack cache).stack = stack := by
  intro fuel
  induction fuel with
  | zero => intro val stack cache p h; simp [linkInternal] at h
  | succ fuel ih =>
    intro val stack cache p h
    cases val with
    | Variable var =>
      simp only [linkInternal] at h ⊢
      cases hc : stack.contains var with
      | true => simp [hc]
      | false =>
        cases hm : cacheGet cache var with
        | some v => simp [hc, hm]
        | none =>
          simp only [hc, hm, Bool.false_eq_true, if_false] at h ⊢
          simp only [varFinish] at h ⊢
          cases hin : (linkInternal g vis vfuel fuel
              ((graphGet g var).getD (unknownNoValue var)) (var :: stack) cache).res with
          | error e => simp [hin] at h
          | ok q =>
            obtain ⟨v, r⟩ := q
            have hst := ih _ _ _ _ hin
            cases r with
            | none => simp [hin, hst, erase_cons_self]
            | some s =>
              by_cases he : (s.filter (fun x => !(x == var))).isEmpty
              · simp [hin, he, hst, erase_cons_self]
              · simp [hin, he, hst, erase_cons_self]
    | Unknown o reason =>
      simp only [linkInternal] at h ⊢
      exact compositeStep_stack_eq vis vfuel _ (fun c st ca p h => ih c st ca p h) _ _ _ _ h
    | Constant n =>
      simp only [linkInternal] at h ⊢
      exact compositeStep_stack_eq vis vfuel _ (fun c st ca p h => ih c st ca p h) _ _ _ _ h
    | Composite cs =>
      simp only [linkInternal] at h ⊢
      exact compositeStep_stack_eq vis vfuel _ (fun c st ca p h => ih c st ca p h) _ _ _ _ h

/-! ### Fuel monotonicity

Once enough fuel is supplied that the computation does not run out, adding
more fuel does not change anything: the fuel is an artifact of the
embedding, not of the algorithm. -/

theorem linkChildren_congr (f f' : JsValue → List Id → LinkCache → LinkOut)
    (hff : ∀ c st ca, (f c st ca).res ≠ .error .outOfFuel → f' c st ca = f c st ca) :
    ∀ (cs : List JsValue) (stack : List Id) (cache : LinkCache),
      (linkChildren f cs stack cache).res ≠ .error .outOfFuel →
      linkChildren f' cs stack cache = linkChildren f cs stack cache := by
  intro cs
  induction cs with
  | nil => intro stack cache _; simp [linkChildren]
  | cons c cs ih =>
    intro stack cache h
    simp only [linkChildren] at h ⊢
    cases hout : (f c stack cache).res with
    | error e =>
      have he : e ≠ Err.outOfFuel := by
        simp only [hout] at h
        intro hc; exact h (by rw [hc])
      have hceq := hff c stack cache (by rw [hout]; simp [he])
      rw [hceq, hout]
    | ok p =>
      obtain ⟨v, r⟩ := p
      have hceq := hff c stack cache (by rw [hout]; simp)
      cases hrest : (linkChildren f cs (f c stack cache).stack (f c stack cache).cache).res with
      | error e =>
        have he : e ≠ Err.outOfFuel := by
          simp only [hout, hrest] at h
          intro hc; exact h (by rw [hc])
        have hre := ih (f c stack cache).stack (f c stack cache).cache
          (by rw [hrest]; simp [he])
        rw [hceq, hout, hre, hrest]
      | ok q =>
        have hre := ih (f c stack cache).stack (f c stack cache).cache
          (by rw [hrest]; simp)
        rw [hceq, hout, hre, hrest]

theorem compositeStep_congr (vis : Visitor) (vfuel : Nat)
    (f f' : JsValue → List Id → LinkCache → LinkOut)
    (hff : ∀ c st ca, (f c st ca).res ≠ .error .outOfFuel → f' c st ca = f c st ca)
    (val : JsValue) (stack : List Id) (cache : LinkCache)
    (h : (compositeStep vis vfuel f val stack cache).res ≠ .error .outOfFuel) :
    compositeStep vis vfuel f' val stack cache = compositeStep vis vfuel f val stack cache := by
  simp only [compositeStep] at h ⊢
  cases hcs : (linkChildren f (childrenOf val) stack cache).res with
  | error e =>
    have he : e ≠ Err.outOfFuel := by
      simp only [hcs] at h
      intro hc; exact h (by rw [hc])
    have hceq := linkChildren_congr f f' hff (childrenOf val) stack cache (by rw [hcs]; simp [he])
    rw [hceq, hcs]
  | ok q =>
    have hceq := linkChildren_congr f f' hff (childrenOf val) stack cache (by rw [hcs]; simp)
    rw [hceq, hcs]

theorem link_mono (g : VarGraph) (vis : Visitor) (vfuel : Nat) :
    ∀ (fuel fuel' : Nat), fuel ≤ fuel' →
      ∀ (val : JsValue) (stack : List Id) (cache : LinkCache),
        (linkInternal g vis vfuel fuel val stack cache).res ≠ .error .outOfFuel →
        linkInternal g vis vfuel fuel' val stack cache
          = linkInternal g vis vfuel fuel val stack cache := by
  intro fuel
  induction fuel with
  | zero =>
    intro fuel' _ val stack cache h
    simp only [linkInternal] at h
    exact absurd rfl h
  | succ fuel ih =>
    intro fuel' hle val stack cache h
    cases fuel' with
    | zero => omega
    | succ fuel' =>
      have hle' : fuel ≤ fuel' := Nat.succ_le_succ_iff.mp hle
      cases val with
      | Variable var =>
        simp only [linkInternal] at h ⊢
        cases hc : stack.contains var with
        | true => simp [hc]
        | false =>
          cases hm : cacheGet cache var with
          | some v => simp [hc, hm]
          | none =>
            simp only [hc, hm, Bool.false_eq_true, if_false] at h ⊢
            have hin : (linkInternal g vis vfuel fuel
                ((graphGet g var).getD (unknownNoValue var)) (var :: stack) cache).res
                ≠ .error .outOfFuel := by
              intro hc2
              apply h
              simp [varFinish, hc2]
            rw [ih fuel' hle' _ _ _ hin]
      | Unknown o reason =>
        simp only [linkInternal] at h ⊢
        exact compositeStep_congr vis vfuel _ _ (fun c st ca hcc => ih fuel' hle' c st ca hcc)
          _ _ _ h
      | Constant n =>
        simp only [linkInternal] at h ⊢
        exact compositeStep_congr vis vfuel _ _ (fun c st ca hcc => ih fuel' hle' c st ca hcc)
          _ _ _ h
      | Composite cs =>
        simp only [linkInternal] at h ⊢
        exact compositeStep_congr vis vfuel _ _ (fun c st ca hcc => ih fuel' hle' c st ca hcc)
          _ _ _ h

/-! ### No cache write for an identity whose resolution is still open

While an identity sits on the cycle tracker, no call below it can create or
change a cache entry for it: entries are only stored by the variable branch,
which is only entered for identities not currently on the tracker. -/

theorem linkChildren_cache_stacked (f : JsValue → List Id → LinkCache → LinkOut)
    (hfp : ∀ c st ca p, (f c st ca).res = .ok p → (f c st ca).stack = st)
    (hfc : ∀ c st ca x, x ∈ st → cacheGet (f c st ca).cache x = cacheGet ca x) :
    ∀ (cs : List JsValue) (stack : List Id) (cache : LinkCache) (x : Id), x ∈ stack →
      cacheGet (linkChildren f cs stack cache).cache x = cacheGet cache x := by
  intro cs
  induction cs with
  | nil => intro stack cache x _; simp [linkChildren]
  | cons c cs ih =>
    intro stack cache x hx
    simp only [linkChildren]
    cases hout : (f c stack cache).res with
    | error e => simpa [hout] using hfc c stack cache x hx
    | ok p =>
      obtain ⟨v, r⟩ := p
      have hst := hfp c stack cache _ hout
      have hx2 : x ∈ (f c stack cache).stack := by rw [hst]; exact hx
      have hrest2 := ih (f c stack cache).stack (f c stack cache).cache x hx2
      cases hrest : (linkChildren f cs (f c stack cache).stack (f c stack cache).cache).res with
      | error e =>
        simp only [hout, hrest]
        exact hrest2.trans (hfc c stack cache x hx)
      | ok q =>
        obtain ⟨vs, m, rcr⟩ := q
        simp only [hout, hrest]
        exact hrest2.trans (hfc c stack cache x hx)

theorem cache_stacked (g : VarGraph) (vis : Visitor) (vfuel : Nat) :
    ∀ (fuel : Nat) (val : JsValue) (stack : List Id) (cache : LinkCache) (x : Id),
      x ∈ stack →
      cacheGet (linkInternal g vis vfuel fuel val stack cache).cache x = cacheGet cache x := by
  intro fuel
  induction fuel with
  | zero => intro val stack cache x _; simp [linkInternal]
  | succ fuel ih =>
    intro val stack cache x hx
    have hcomp : ∀ (val : JsValue),
        cacheGet (compositeStep vis vfuel
          (fun c st ca => linkInternal g vis vfuel fuel c st ca) val stack cache).cache x
          = cacheGet cache x := by
      intro val
      simp only [compositeStep]
      have hlc := linkChildren_cache_stacked
        (fun c st ca => linkInternal g vis vfuel fuel c st ca)
        (fun c st ca p hp => stack_preserved g vis vfuel fuel c st ca p hp)
        (fun c st ca y hy => ih c st ca y hy)
        (childrenOf val) stack cache x hx
      cases hcs : (linkChildren (fun c st ca => linkInternal g vis vfuel fuel c st ca)
          (childrenOf val) stack cache).res with
      | error e => simpa [hcs] using hlc
      | ok q =>
        obtain ⟨vs, anyMod, rcr⟩ := q
        cases hvl : visitorLoop vis vfuel
            (if anyMod then normalizeShallow (withChildren val vs) else withChildren val vs) with
        | error e => simpa [hcs, hvl] using hlc
        | ok q2 => simpa [hcs, hvl] using hlc
    cases val with
    | Variable var =>
      simp only [linkInternal]
      cases hc : stack.contains var with
      | true => simp [hc]
      | false =>
        have hvx : x ≠ var := by
          intro hxv
          rw [hxv] at hx
          have : stack.contains var = true := List.elem_iff.mpr hx
          rw [hc] at this
          exact Bool.false_ne_true this
        cases hm : cacheGet cache var with
        | some v => simp [hc, hm]
        | none =>
          simp only [hc, hm, Bool.false_eq_true, if_false]
          have hxin : x ∈ var :: stack := List.mem_cons_of_mem var hx
          have hinner := ih ((graphGet g var).getD (unknownNoValue var)) (var :: stack) cache x hxin
          simp only [varFinish]
          cases hin : (linkInternal g vis vfuel fuel
              ((graphGet g var).getD (unknownNoValue var)) (var :: stack) cache).res with
          | error e => simpa [hin] using hinner
          | ok q =>
            obtain ⟨v, r⟩ := q
            cases r with
            | none =>
              simp only [hin]
              rw [cacheGet_store_ne var x v _ hvx]
              exact hinner
            | some s =>
              by_cases he : (s.filter (fun z => !(z == var))).isEmpty
              · simp only [hin, he, if_true]
                rw [cacheGet_store_ne var x v _ hvx]
                exact hinner
              · simp only [hin, he, if_false]
                exact hinner
    | Unknown o reason => simpa only [linkInternal] using hcomp (.Unknown o reason)
    | Constant n => simpa only [linkInternal] using hcomp (.Constant n)
    | Composite cs => simpa only [linkInternal] using hcomp (.Composite cs)

/-- The variable branch never reports "no replaced-reference set": a cycle
hit reports the singleton set, a cache hit the empty set, and the main path
replaces a missing report by the empty set. -/
theorem var_res_isSome (g : VarGraph) (vis : Visitor) (vfuel fuel : Nat)
    (var : Id) (stack : List Id) (cache : LinkCache) (v : JsValue) (r : Option (List Id))
    (h : (linkInternal g vis vfuel fuel (.Variable var) stack cache).res = .ok (v, r)) :
    r.isSome = true := by
  cases fuel with
  | zero => simp [linkInternal] at h
  | succ fuel =>
    simp only [linkInternal] at h
    cases hc : stack.contains var with
    | true =>
      rw [hc] at h
      simp only [if_true] at h
      obtain ⟨_, hr⟩ := Prod.mk.injEq .. ▸ (Except.ok.inj h)
      rw [← hr]
      rfl
    | false =>
      rw [hc] at h
      simp only [Bool.false_eq_true, if_false] at h
      cases hm : cacheGet cache var with
      | some w =>
        rw [hm] at h
        obtain ⟨_, hr⟩ := Prod.mk.injEq .. ▸ (Except.ok.inj h)
        rw [← hr]
        rfl
      | none =>
        rw [hm] at h
        simp only [varFinish] at h
        cases hin : (linkInternal g vis vfuel fuel
            ((graphGet g var).getD (unknownNoValue var)) (var :: stack) cache).res with
        | error e => simp [hin] at h
        | ok q =>
          obtain ⟨v0, r0⟩ := q
          cases r0 with
          | none =>
            simp only [hin] at h
            obtain ⟨_, hr⟩ := Prod.mk.injEq .. ▸ (Except.ok.inj h)
            rw [← hr]
            rfl
          | some s =>
            by_cases he : (s.filter (fun z => !(z == var))).isEmpty
            · simp only [hin, he, if_true] at h
              obtain ⟨_, hr⟩ := Prod.mk.injEq .. ▸ (Except.ok.inj h)
              rw [← hr]
              rfl
            · simp only [hin, he, if_false] at h
              obtain ⟨_, hr⟩ := Prod.mk.injEq .. ▸ (Except.ok.inj h)
              rw [← hr]
              rfl

/-! ### Termination: some finite fuel always suffices

The measure is lexicographic: the number of reference-graph entries whose
identity is not yet on the cycle tracker, then the structural size of the
value (a variable counts more than the unknown that replaces a missing
binding).  The variable branch either consumes a graph entry or shrinks the
value; the composite branch shrinks the value. -/

mutual
def sizeVal : JsValue → Nat
  | .Variable _ => 2
  | .Unknown _ _ => 1
  | .Constant _ => 1
  | .Composite cs => 1 + sizeList cs
def sizeList : List JsValue → Nat
  | [] => 0
  | c :: cs => sizeVal c + sizeList cs
end

theorem sizeVal_le_of_mem (c : JsValue) : ∀ (cs : List JsValue), c ∈ cs → sizeVal c ≤ sizeList cs := by
  intro cs
  induction cs with
  | nil => intro h; simp at h
  | cons a l ih =>
    intro h
    cases List.mem_cons.mp h with
    | inl hh => rw [hh, sizeList]; omega
    | inr hh =>
      have := ih hh
      rw [sizeList]
      omega

/-- Number of reference-graph entries whose identity is not on the given
cycle tracker. -/
def unvisited (g : VarGraph) (stack : List Id) : Nat :=
  (g.values.filter (fun p => !(stack.contains p.1))).length

theorem filter_length_mono {α : Type} (p q : α → Bool) (h : ∀ a, p a = true → q a = true) :
    ∀ l : List α, (l.filter p).length ≤ (l.filter q).length := by
  intro l
  induction l with
  | nil => simp
  | cons a l ih =>
    cases hp : p a with
    | true =>
      have hq := h a hp
      simp only [List.filter_cons, hp, hq, if_true, List.length_cons]
      omega
    | false =>
      cases hq : q a with
      | true =>
        simp only [List.filter_cons, hp, hq, Bool.false_eq_true, if_false, if_true,
          List.length_cons]
        omega
      | false =>
        simp only [List.filter_cons, hp, hq, Bool.false_eq_true, if_false]
        exact ih

theorem unvisited_cons_le (g : VarGraph) (y : Id) (stack : List Id) :
    unvisited g (y :: stack) ≤ unvisited g stack := by
  apply filter_length_mono
  intro p hp
  simp only [Bool.not_eq_true'] at hp ⊢
  cases hs : stack.contains p.1 with
  | false => rfl
  | true =>
    exfalso
    have hcc : (y :: stack).contains p.1 = true := by
      simp only [List.contains_cons, hs, Bool.or_true]
    rw [hp] at hcc
    exact Bool.false_ne_true hcc

theorem unvisited_cons_lt (g : VarGraph) (var : Id) (stack : List Id)
    (hmem : ∃ p ∈ g.values, p.1 = var) (hns : stack.contains var = false) :
    unvisited g (var :: stack) < unvisited g stack := by
  unfold unvisited
  obtain ⟨p0, hp0mem, hp0⟩ := hmem
  have main : ∀ (l : List (Id × JsValue)), (∃ p ∈ l, p.1 = var) →
      (l.filter (fun p => !((var :: stack).contains p.1))).length
        < (l.filter (fun p => !(stack.contains p.1))).length := by
    intro l
    induction l with
    | nil => intro h; simp at h
    | cons q l ih =>
      intro h
      by_cases hq : q.1 = var
      · have hold : (!(stack.contains q.1)) = true := by rw [hq, hns]; rfl
        have hnew : (!((var :: stack).contains q.1)) = false := by
          rw [hq]
          simp [List.contains_cons]
        rw [List.filter_cons, List.filter_cons, hold, hnew]
        simp only [if_true, Bool.false_eq_true, if_false, List.length_cons]
        have hle := filter_length_mono (fun p => !((var :: stack).contains p.1))
          (fun p => !(stack.contains p.1)) ?himp l
        · omega
        · intro a ha
          simp only [Bool.not_eq_true'] at ha ⊢
          cases hs : stack.contains a.1 with
          | false => rfl
          | true =>
            exfalso
            have hcc : (var :: stack).contains a.1 = true := by
              simp only [List.contains_cons, hs, Bool.or_true]
            rw [ha] at hcc
            exact Bool.false_ne_true hcc
      · have hsame : (!((var :: stack).contains q.1)) = (!(stack.contains q.1)) := by
          have hb : (q.1 == var) = false := by
            simp only [beq_eq_false_iff_ne]
            exact hq
          simp only [List.contains_cons, hb, Bool.false_or]
        obtain ⟨p, hpmem, hp1⟩ := h
        have hptail : p ∈ l := by
          cases List.mem_cons.mp hpmem with
          | inl hh => exact absurd (hh ▸ hp1) hq
          | inr hh => exact hh
        have hlt := ih ⟨p, hptail, hp1⟩
        rw [List.filter_cons, List.filter_cons, hsame]
        cases hv : (!(stack.contains q.1)) with
        | true => simp only [if_true, List.length_cons]; omega
        | false => simp only [Bool.false_eq_true, if_false]; exact hlt
  exact main g.values ⟨p0, hp0mem, hp0⟩

theorem graphGet_some_mem (g : VarGraph) (var : Id) (bv : JsValue)
    (h : graphGet g var = some bv) : ∃ p ∈ g.values, p.1 = var := by
  unfold graphGet at h
  cases hf : g.values.find? (fun p => p.1 == var) with
  | none => rw [hf] at h; simp at h
  | some p =>
    have hm := List.mem_of_find?_eq_some hf
    have hp := List.find?_some hf
    exact ⟨p, hm, by simpa using hp⟩

theorem varFinish_ne_oof (var : Id) (inner : LinkOut)
    (h : inner.res ≠ .error .outOfFuel) :
    (varFinish var inner).res ≠ .error .outOfFuel := by
  unfold varFinish
  cases hin : inner.res with
  | error e =>
    simp only [hin]
    intro hc
    exact h (hin.trans hc)
  | ok q =>
    obtain ⟨v, r⟩ := q
    cases r with
    | none => simp [hin]
    | some s =>
      by_cases he : (s.filter (fun x => !(x == var))).isEmpty
      · simp [hin, he]
      · simp [hin, he]

theorem compositeStep_ne_oof (vis : Visitor) (vfuel : Nat)
    (hvis : ∀ w, visitorLoop vis vfuel w ≠ .error .outOfFuel)
    (f : JsValue → List Id → LinkCache → LinkOut)
    (val : JsValue) (stack : List Id) (cache : LinkCache)
    (h : (linkChildren f (childrenOf val) stack cache).res ≠ .error .outOfFuel) :
    (compositeStep vis vfuel f val stack cache).res ≠ .error .outOfFuel := by
  simp only [compositeStep]
  cases hcs : (linkChildren f (childrenOf val) stack cache).res with
  | error e =>
    simp only [hcs]
    intro hc
    have he : e = Err.outOfFuel := Except.error.inj hc
    exact h (by rw [hcs, he])
  | ok q =>
    obtain ⟨vs, anyMod, rcr⟩ := q
    cases hvl : visitorLoop vis vfuel
        (if anyMod then normalizeShallow (withChildren val vs) else withChildren val vs) with
    | error e =>
      simp only [hcs, hvl]
      intro hc
      have he : e = Err.outOfFuel := Except.error.inj hc
      exact hvis _ (by rw [hvl, he])
    | ok q2 =>
      obtain ⟨v2, m⟩ := q2
      simp [hcs, hvl]

theorem suff_children (g : VarGraph) (vis : Visitor) (vfuel : Nat) :
    ∀ (cs : List JsValue) (stack : List Id) (cache : LinkCache),
      (∀ c ∈ cs, ∀ ca : LinkCache, ∃ fuel,
        (linkInternal g vis vfuel fuel c stack ca).res ≠ .error .outOfFuel) →
      ∃ fuel, (linkChildren (fun c st ca => linkInternal g vis vfuel fuel c st ca)
        cs stack cache).res ≠ .error .outOfFuel := by
  intro cs
  induction cs with
  | nil =>
    intro stack cache _
    refine ⟨0, ?_⟩
    simp [linkChildren]
  | cons c cs ih =>
    intro stack cache hc
    obtain ⟨f1, hf1⟩ := hc c (List.mem_cons_self c cs) cache
    cases hout : (linkInternal g vis vfuel f1 c stack cache).res with
    | error e =>
      have he : e ≠ Err.outOfFuel := fun hh => hf1 (by rw [hout, hh])
      refine ⟨f1, ?_⟩
      simp only [linkChildren, hout]
      simp only [ne_eq, Except.error.injEq]
      exact he
    | ok p =>
      obtain ⟨v, r⟩ := p
      have hst : (linkInternal g vis vfuel f1 c stack cache).stack = stack :=
        stack_preserved g vis vfuel f1 c stack cache _ hout
      obtain ⟨f2, hf2⟩ := ih stack ((linkInternal g vis vfuel f1 c stack cache).cache)
        (fun c' hc' ca => hc c' (List.mem_cons_of_mem c hc') ca)
      refine ⟨max f1 f2, ?_⟩
      have hmono1 : linkInternal g vis vfuel (max f1 f2) c stack cache
          = linkInternal g vis vfuel f1 c stack cache :=
        link_mono g vis vfuel f1 (max f1 f2) (Nat.le_max_left f1 f2) c stack cache
          (by rw [hout]; simp)
      have hf2' : (linkChildren (fun c' st ca => linkInternal g vis vfuel f2 c' st ca)
          cs (linkInternal g vis vfuel f1 c stack cache).stack
          (linkInternal g vis vfuel f1 c stack cache).cache).res ≠ .error .outOfFuel := by
        rw [hst]
        exact hf2
      have hcong := linkChildren_congr
        (fun c' st ca => linkInternal g vis vfuel f2 c' st ca)
        (fun c' st ca => linkInternal g vis vfuel (max f1 f2) c' st ca)
        (fun c' st ca hne =>
          link_mono g vis vfuel f2 (max f1 f2) (Nat.le_max_right f1 f2) c' st ca hne)
        cs (linkInternal g vis vfuel f1 c stack cache).stack
        (linkInternal g vis vfuel f1 c stack cache).cache hf2'
      simp only [linkChildren, hmono1, hout, hcong]
      cases hrest : (linkChildren (fun c' st ca => linkInternal g vis vfuel f2 c' st ca)
          cs (linkInternal g vis vfuel f1 c stack cache).stack
          (linkInternal g vis vfuel f1 c stack cache).cache).res with
      | error e =>
        have he : e ≠ Err.outOfFuel := fun hh => hf2' (by rw [hrest, hh])
        simp only [ne_eq, Except.error.injEq]
        exact he
      | ok q =>
        obtain ⟨vs, m, rcr⟩ := q
        simp

theorem link_sufficient (g : VarGraph) (vis : Visitor) (vfuel : Nat)
    (hvis : ∀ w, visitorLoop vis vfuel w ≠ .error .outOfFuel) :
    ∀ (u s : Nat) (val : JsValue) (stack : List Id) (cache : LinkCache),
      unvisited g stack ≤ u → sizeVal val ≤ s →
      ∃ fuel, (linkInternal g vis vfuel fuel val stack cache).res ≠ .error .outOfFuel := by
  intro u
  induction u using Nat.strong_induction_on with
  | _ u ihu =>
    intro s
    induction s using Nat.strong_induction_on with
    | _ s ihs =>
      intro val stack cache hu hs
      cases val with
      | Constant n =>
        refine ⟨1, ?_⟩
        have h0 : (linkChildren (fun c st ca => linkInternal g vis vfuel 0 c st ca)
            (childrenOf (JsValue.Constant n)) stack cache).res ≠ .error .outOfFuel := by
          simp [childrenOf, linkChildren]
        simpa only [linkInternal] using
          compositeStep_ne_oof vis vfuel hvis _ (JsValue.Constant n) stack cache h0
      | Unknown o reason =>
        refine ⟨1, ?_⟩
        have h0 : (linkChildren (fun c st ca => linkInternal g vis vfuel 0 c st ca)
            (childrenOf (JsValue.Unknown o reason)) stack cache).res ≠ .error .outOfFuel := by
          simp [childrenOf, linkChildren]
        simpa only [linkInternal] using
          compositeStep_ne_oof vis vfuel hvis _ (JsValue.Unknown o reason) stack cache h0
      | Variable var =>
        cases hc : stack.contains var with
        | true =>
          refine ⟨1, ?_⟩
          have hmem : var ∈ stack := List.elem_iff.mp hc
          simp [linkInternal, hmem]
        | false =>
          have hnm : var ∉ stack := fun hmm =>
            Bool.false_ne_true (hc.symm.trans (List.elem_iff.mpr hmm))
          cases hm : cacheGet cache var with
          | some v =>
            refine ⟨1, ?_⟩
            simp [linkInternal, hnm, hm]
          | none =>
            cases hg : graphGet g var with
            | some bv =>
              have hlt : unvisited g (var :: stack) < u :=
                lt_of_lt_of_le (unvisited_cons_lt g var stack (graphGet_some_mem g var bv hg) hc) hu
              obtain ⟨f1, hf1⟩ := ihu (unvisited g (var :: stack)) hlt (sizeVal bv)
                bv (var :: stack) cache le_rfl le_rfl
              refine ⟨f1 + 1, ?_⟩
              simp only [linkInternal, hc, hm, hg, Bool.false_eq_true, if_false,
                Option.getD_some]
              exact varFinish_ne_oof var _ hf1
            | none =>
              have hsz : sizeVal (JsValue.Variable var) = 2 := rfl
              have hu2 : unvisited g (var :: stack) ≤ u :=
                le_trans (unvisited_cons_le g var stack) hu
              obtain ⟨f1, hf1⟩ := ihs 1 (by omega) (unknownNoValue var) (var :: stack)
                cache hu2 le_rfl
              refine ⟨f1 + 1, ?_⟩
              simp only [linkInternal, hc, hm, hg, Bool.false_eq_true, if_false,
                Option.getD_none]
              exact varFinish_ne_oof var _ hf1
      | Composite cs =>
        have hchild : ∀ c ∈ cs, ∀ ca : LinkCache, ∃ fuel,
            (linkInternal g vis vfuel fuel c stack ca).res ≠ .error .outOfFuel := by
          intro c hcm ca
          have h1 : sizeVal c ≤ sizeList cs := sizeVal_le_of_mem c cs hcm
          have h2 : sizeVal (JsValue.Composite cs) = 1 + sizeList cs := rfl
          exact ihs (sizeVal c) (by omega) c stack ca hu le_rfl
        obtain ⟨fc, hfc⟩ := suff_children g vis vfuel cs stack cache hchild
        refine ⟨fc + 1, ?_⟩
        simpa only [linkInternal] using
          compositeStep_ne_oof vis vfuel hvis _ (JsValue.Composite cs) stack cache
            (by simpa only [childrenOf] using hfc)

/-- For every graph, root value, tracker and cache, some finite fuel makes
the embedding return without exhausting the recursion bound, provided the
caller-supplied visitor fixpoint loop itself terminates (within the visitor
fuel): the only possible non-termination of the Rust recursion is the
visitor loop. -/
theorem link_total (g : VarGraph) (vis : Visitor) (vfuel : Nat)
    (hvis : ∀ w, visitorLoop vis vfuel w ≠ .error .outOfFuel)
    (val : JsValue) (stack : List Id) (cache : LinkCache) :
    ∃ fuel, (linkInternal g vis vfuel fuel val stack cache).res ≠ .error .outOfFuel :=
  link_sufficient g vis vfuel hvis (unvisited g stack) (sizeVal val) val stack cache le_rfl le_rfl

/-! ### Concrete scenarios -/

/-- The chain graph x -> y -> 5 from the spec's first scenario. -/
def graphXY : VarGraph := ⟨[("x", .Variable "y"), ("y", .Constant 5)]⟩

/-- The two-cycle graph a -> b -> a from the spec's second scenario. -/
def graphAB : VarGraph := ⟨[("a", .Variable "b"), ("b", .Variable "a")]⟩

/-- The graph obtained from graphAB by re-binding a to the constant 1. -/
def graphExtended : VarGraph := ⟨[("a", .Constant 1), ("b", .Variable "a")]⟩

/-- A one-entry graph binding x to the constant 5. -/
def graphX5 : VarGraph := ⟨[("x", .Constant 5)]⟩

/-- A one-entry graph binding x to the constant 7. -/
def graphX7 : VarGraph := ⟨[("x", .Constant 7)]⟩

/-- A visitor that fails on the constant 7 and leaves everything else
unchanged. -/
def failOn7 : Visitor := fun v =>
  match v with
  | .Constant 7 => .error "boom"
  | w => .ok (w, false)

mutual
/-- Whether a value contains, at its top level or inside a composite child,
an unknown whose reason is the circular-reference marker. -/
def hasCircUnknown : JsValue → Bool
  | .Unknown _ reason => reason == "circular variable reference"
  | .Composite cs => hasCircUnknownList cs
  | _ => false
/-- List version of hasCircUnknown over the children of a composite. -/
def hasCircUnknownList : List JsValue → Bool
  | [] => false
  | c :: cs => hasCircUnknown c || hasCircUnknownList cs
end

/-! ### Claims -/

/-- Claim C1: for every variable identity resolved through the main variable
branch of link_internal (neither a cycle hit nor a cache hit), the resolved
value is written to the cache if and only if the recursive resolution of the
bound expression reported no replaced-reference set or one that is empty
after removing this identity; otherwise no cache write occurs for this
identity and the identity-stripped non-empty replaced-reference set is
returned to the caller. -/
theorem c1_cache_admission (g : VarGraph) (vis : Visitor) (vfuel fuel : Nat)
    (var : Id) (stack : List Id) (cache : LinkCache) (v : JsValue) (r : Option (List Id))
    (hnc : stack.contains var = false)
    (hnm : cacheGet cache var = none)
    (hin : (linkInternal g vis vfuel fuel ((graphGet g var).getD (unknownNoValue var))
      (var :: stack) cache).res = .ok (v, r)) :
    (linkInternal g vis vfuel (fuel + 1) (.Variable var) stack cache).res
      = .ok (v, some ((r.getD []).filter (fun x => !(x == var)))) ∧
    (((r.getD []).filter (fun x => !(x == var))).isEmpty = true →
      cacheGet (linkInternal g vis vfuel (fuel + 1) (.Variable var) stack cache).cache var
        = some v) ∧
    (((r.getD []).filter (fun x => !(x == var))).isEmpty = false →
      (linkInternal g vis vfuel (fuel + 1) (.Variable var) stack cache).cache
        = (linkInternal g vis vfuel fuel ((graphGet g var).getD (unknownNoValue var))
            (var :: stack) cache).cache ∧
      cacheGet (linkInternal g vis vfuel (fuel + 1) (.Variable var) stack cache).cache var
        = none) := by
  have hnmem : var ∉ stack := fun hmm =>
    Bool.false_ne_true (hnc.symm.trans (List.elem_iff.mpr hmm))
  have hstep : linkInternal g vis vfuel (fuel + 1) (.Variable var) stack cache
      = varFinish var (linkInternal g vis vfuel fuel
          ((graphGet g var).getD (unknownNoValue var)) (var :: stack) cache) := by
    simp [linkInternal, hnmem, hnm]
  rw [hstep]
  have hget : cacheGet (linkInternal g vis vfuel fuel
      ((graphGet g var).getD (unknownNoValue var)) (var :: stack) cache).cache var
      = none :=
    (cache_stacked g vis vfuel fuel _ (var :: stack) cache var
      (List.mem_cons_self var stack)).trans hnm
  cases r with
  | none =>
    simp only [varFinish, hin]
    refine ⟨by simp, fun _ => cacheGet_store_self var v _, fun habs => ?_⟩
    simp at habs
  | some s =>
    cases he : (s.filter (fun x => !(x == var))).isEmpty with
    | true =>
      simp only [varFinish, hin, he, if_true]
      refine ⟨by simp, fun _ => cacheGet_store_self var v _, fun habs => ?_⟩
      rw [Option.getD_some] at habs
      rw [he] at habs
      exact absurd habs (by simp)
    | false =>
      simp only [varFinish, hin, he, Bool.false_eq_true, if_false]
      refine ⟨by simp, fun habs => ?_, fun _ => ⟨by trivial, hget⟩⟩
      rw [Option.getD_some] at habs
      rw [he] at habs
      exact absurd habs (by simp)

/-- Witness for C1 at the one-entry graph x -> 5: the recursive resolution
reports no replaced set, so the branch returns the empty stripped set. -/
theorem c1_witness :
    (linkInternal graphX5 idVisitor 1 3 (.Variable "x") [] []).res
      = .ok (.Constant 5,
          some ((Option.getD (none : Option (List Id)) []).filter (fun x => !(x == "x")))) :=
  (c1_cache_admission graphX5 idVisitor 1 2 "x" [] [] (.Constant 5) none rfl rfl rfl).1

/-- Claim C2 counterexample: after resolving Variable a in the cycle graph
a -> b -> a, the cache does contain an entry for a (the circular unknown),
and re-resolving a after re-binding it to the constant 1 with the same cache
returns that stale cached unknown — contradicting the claim that no cache
entry is left for a and that no stale value is returned. -/
theorem c2_stale_cache_counterexample :
    cacheGet (link graphAB idVisitor 1 4 (.Variable "a") []).2 "a"
      = some (unknownCircular "a") ∧
    (link graphExtended idVisitor 1 4 (.Variable "a")
        (link graphAB idVisitor 1 4 (.Variable "a") []).2).1
      = .ok (unknownCircular "a") :=
  ⟨rfl, rfl⟩

/-- Claim C2 (amended): link on the cycle graph returns the circular unknown
with origin Variable a, and afterwards the cache contains no entry for b;
however it does contain a bound to that unknown (a's own identity is
stripped from the replaced set before the admission check, so the head of
the cycle is cached), and re-resolving after re-binding a to Constant 1 with
the same cache returns the stale cached unknown. -/
theorem c2_cycle_cache_amended :
    (link graphAB idVisitor 1 4 (.Variable "a") []).1 = .ok (unknownCircular "a") ∧
    cacheGet (link graphAB idVisitor 1 4 (.Variable "a") []).2 "b" = none ∧
    cacheGet (link graphAB idVisitor 1 4 (.Variable "a") []).2 "a"
      = some (unknownCircular "a") ∧
    (link graphExtended idVisitor 1 4 (.Variable "a")
        (link graphAB idVisitor 1 4 (.Variable "a") []).2).1
      = .ok (unknownCircular "a") :=
  ⟨rfl, rfl, rfl, rfl⟩

/-- Claim C3: for every finite reference graph and every root value, link
terminates — in the embedding, some finite recursion fuel suffices —
provided the caller's visitor fixpoint loop terminates; and on the cyclic
graph a -> b -> a, resolving either a or b yields a value containing an
unknown with reason "circular variable reference". -/
theorem c3_termination (g : VarGraph) (vis : Visitor) (vfuel : Nat)
    (hvis : ∀ w, visitorLoop vis vfuel w ≠ .error .outOfFuel) :
    (∀ (val : JsValue) (cache : LinkCache), ∃ fuel,
      (link g vis vfuel fuel val cache).1 ≠ .error .outOfFuel) ∧
    ((link graphAB idVisitor 1 4 (.Variable "a") []).1 = .ok (unknownCircular "a") ∧
      hasCircUnknown (unknownCircular "a") = true ∧
      (link graphAB idVisitor 1 4 (.Variable "b") []).1 = .ok (unknownCircular "b") ∧
      hasCircUnknown (unknownCircular "b") = true) := by
  constructor
  · intro val cache
    obtain ⟨fuel, hf⟩ := link_total g vis vfuel hvis (normalize val) [] cache
    refine ⟨fuel, ?_⟩
    unfold link
    cases hres : (linkInternal g vis vfuel fuel (normalize val) [] cache).res with
    | error e =>
      have he : e ≠ Err.outOfFuel := fun hh => hf (by rw [hres, hh])
      simp only [hres, Except.map, ne_eq, Except.error.injEq]
      exact he
    | ok p => simp [hres, Except.map]
  · exact ⟨rfl, rfl, rfl, rfl⟩

/-- Witness for C3 with the identity visitor on the cyclic graph. -/
theorem c3_witness :
    ∃ fuel, (link graphAB idVisitor 1 fuel (.Variable "a") []).1 ≠ .error .outOfFuel :=
  (c3_termination graphAB idVisitor 1
    (fun w => by simp [visitorLoop, idVisitor])).1 (.Variable "a") []

/-- Claim C4 counterexample: in the resolution of Variable x over the chain
graph x -> y -> 5, the cache write for y happens at event position 2 and the
tracker removal of y at position 3 — the cache-admission decision is not
after the tracker removal, contradicting the claimed order (insertion,
recursion, removal, then admission). -/
theorem c4_order_counterexample :
    (linkInternal graphXY idVisitor 1 4 (.Variable "x") [] []).events
      = [.trackerInsert "x", .trackerInsert "y", .cacheWrite "y", .trackerRemove "y",
         .cacheWrite "x", .trackerRemove "x"] ∧
    ¬ ((linkInternal graphXY idVisitor 1 4 (.Variable "x") [] []).events.indexOf
          (Event.trackerRemove "y")
        < (linkInternal graphXY idVisitor 1 4 (.Variable "x") [] []).events.indexOf
          (Event.cacheWrite "y")) :=
  ⟨rfl, by decide⟩

/-- Claim C4 (amended): within one variable's resolution through the main
branch, the event order is: tracker insertion, then the events of the
recursive resolution of the bound expression, then the cache-admission
decision (a write or an explicit skip), and only then the tracker
removal. -/
theorem c4_order_amended (g : VarGraph) (vis : Visitor) (vfuel fuel : Nat)
    (var : Id) (stack : List Id) (cache : LinkCache) (v : JsValue) (r : Option (List Id))
    (hnc : stack.contains var = false)
    (hnm : cacheGet cache var = none)
    (hin : (linkInternal g vis vfuel fuel ((graphGet g var).getD (unknownNoValue var))
      (var :: stack) cache).res = .ok (v, r)) :
    ∃ d, (linkInternal g vis vfuel (fuel + 1) (.Variable var) stack cache).events
        = .trackerInsert var
          :: (linkInternal g vis vfuel fuel ((graphGet g var).getD (unknownNoValue var))
              (var :: stack) cache).events
          ++ [d, .trackerRemove var] ∧
      (d = Event.cacheWrite var ∨ d = Event.cacheNoWrite var) := by
  have hnmem : var ∉ stack := fun hmm =>
    Bool.false_ne_true (hnc.symm.trans (List.elem_iff.mpr hmm))
  have hstep : linkInternal g vis vfuel (fuel + 1) (.Variable var) stack cache
      = varFinish var (linkInternal g vis vfuel fuel
          ((graphGet g var).getD (unknownNoValue var)) (var :: stack) cache) := by
    simp [linkInternal, hnmem, hnm]
  rw [hstep]
  cases r with
  | none =>
    refine ⟨Event.cacheWrite var, ?_, Or.inl rfl⟩
    simp [varFinish, hin]
  | some s =>
    cases he : (s.filter (fun x => !(x == var))).isEmpty with
    | true =>
      refine ⟨Event.cacheWrite var, ?_, Or.inl rfl⟩
      simp [varFinish, hin, he]
    | false =>
      refine ⟨Event.cacheNoWrite var, ?_, Or.inr rfl⟩
      simp [varFinish, hin, he]

/-- Witness for C4 (amended) at the one-entry graph x -> 5. -/
theorem c4_witness :
    ∃ d, (linkInternal graphX5 idVisitor 1 3 (.Variable "x") [] []).events
        = .trackerInsert "x"
          :: (linkInternal graphX5 idVisitor 1 2
              ((graphGet graphX5 "x").getD (unknownNoValue "x")) ["x"] []).events
          ++ [d, .trackerRemove "x"] ∧
      (d = Event.cacheWrite "x" ∨ d = Event.cacheNoWrite "x") :=
  c4_order_amended graphX5 idVisitor 1 2 "x" [] [] (.Constant 5) none rfl rfl rfl

/-- Claim C5 counterexample: resolving the composite [Variable x, Constant 7]
over the graph x -> 5 with a visitor that fails on 7 aborts with that
failure, but the cache afterwards contains x -> 5 (written when the first
child's resolution completed before the failure) — it is not unchanged from
the empty cache the call started with. -/
theorem c5_failed_call_cache_counterexample :
    (link graphX5 failOn7 1 4 (.Composite [.Variable "x", .Constant 7]) []).1
      = .error (.visitorError "boom") ∧
    cacheGet (link graphX5 failOn7 1 4 (.Composite [.Variable "x", .Constant 7]) []).2 "x"
      = some (.Constant 5) :=
  ⟨rfl, rfl⟩

/-- Claim C5 (amended): a failure of a child's recursive resolution or of a
visitor call propagates immediately — the variable branch returns the
child's failure unchanged and performs no cache write of its own, and the
composite branch returns a failing child fan-out's failure unchanged — but
cache entries committed by variable resolutions that completed before the
failure remain: the cache is not rolled back. -/
theorem c5_error_propagation_amended (g : VarGraph) (vis : Visitor) (vfuel fuel : Nat) :
    (∀ (var : Id) (stack : List Id) (cache : LinkCache) (e : Err),
      stack.contains var = false →
      cacheGet cache var = none →
      (linkInternal g vis vfuel fuel ((graphGet g var).getD (unknownNoValue var))
        (var :: stack) cache).res = .error e →
      (linkInternal g vis vfuel (fuel + 1) (.Variable var) stack cache).res = .error e ∧
      (linkInternal g vis vfuel (fuel + 1) (.Variable var) stack cache).cache
        = (linkInternal g vis vfuel fuel ((graphGet g var).getD (unknownNoValue var))
            (var :: stack) cache).cache) ∧
    (∀ (cs : List JsValue) (stack : List Id) (cache : LinkCache) (e : Err),
      (linkChildren (fun c st ca => linkInternal g vis vfuel fuel c st ca)
        cs stack cache).res = .error e →
      (linkInternal g vis vfuel (fuel + 1) (.Composite cs) stack cache).res = .error e ∧
      (linkInternal g vis vfuel (fuel + 1) (.Composite cs) stack cache).cache
        = (linkChildren (fun c st ca => linkInternal g vis vfuel fuel c st ca)
            cs stack cache).cache) := by
  constructor
  · intro var stack cache e hnc hnm hin
    have hnmem : var ∉ stack := fun hmm =>
      Bool.false_ne_true (hnc.symm.trans (List.elem_iff.mpr hmm))
    have hstep : linkInternal g vis vfuel (fuel + 1) (.Variable var) stack cache
        = varFinish var (linkInternal g vis vfuel fuel
            ((graphGet g var).getD (unknownNoValue var)) (var :: stack) cache) := by
      simp [linkInternal, hnmem, hnm]
    rw [hstep]
    simp [varFinish, hin]
  · intro cs stack cache e hcs
    have hstep : linkInternal g vis vfuel (fuel + 1) (.Composite cs) stack cache
        = compositeStep vis vfuel (fun c st ca => linkInternal g vis vfuel fuel c st ca)
            (.Composite cs) stack cache := by
      simp [linkInternal]
    rw [hstep]
    simp only [compositeStep, childrenOf]
    rw [hcs]
    exact ⟨rfl, rfl⟩

/-- Witness for C5 (amended): the variable branch propagates the visitor
failure raised while resolving the bound expression of x -> 7. -/
theorem c5_witness :
    (linkInternal graphX7 failOn7 1 2 (.Variable "x") [] []).res
      = .error (.visitorError "boom") ∧
    (linkInternal graphX7 failOn7 1 2 (.Variable "x") [] []).cache
      = (linkInternal graphX7 failOn7 1 1
          ((graphGet graphX7 "x").getD (unknownNoValue "x")) ["x"] []).cache :=
  (c5_error_propagation_amended graphX7 failOn7 1 1).1 "x" [] []
    (.visitorError "boom") rfl rfl rfl

/-- Claim C6: a variable identity already on the cycle tracker resolves to
the unknown with origin Variable var and reason "circular variable
reference" together with the replaced-reference set containing exactly this
identity, and this branch leaves the tracker and the cache unchanged (and
performs no events). -/
theorem c6_cycle_hit (g : VarGraph) (vis : Visitor) (vfuel fuel : Nat)
    (var : Id) (stack : List Id) (cache : LinkCache)
    (h : stack.contains var = true) :
    linkInternal g vis vfuel (fuel + 1) (.Variable var) stack cache
      = ⟨.ok (unknownCircular var, some [var]), stack, cache, []⟩ := by
  have hmem : var ∈ stack := List.elem_iff.mp h
  simp [linkInternal, hmem]

/-- Witness for C6 with a already being resolved by an ancestor. -/
theorem c6_witness :
    linkInternal graphAB idVisitor 1 1 (.Variable "a") ["a"] []
      = ⟨.ok (unknownCircular "a", some ["a"]), ["a"], [], []⟩ :=
  c6_cycle_hit graphAB idVisitor 1 0 "a" ["a"] [] rfl

/-- Claim C7: a variable with no entry in the reference graph is substituted
by the unknown with reason "no value of this variable analysed" and resolved
through the general composite path (first conjunct: the branch literally
reduces to varFinish applied to the recursive resolution of that unknown);
with the identity visitor this succeeds, returning that unknown with an
empty replaced set — it is not a failure. -/
theorem c7_missing_binding (g : VarGraph) (vis : Visitor) (vfuel fuel : Nat)
    (var : Id) (stack : List Id) (cache : LinkCache)
    (hnc : stack.contains var = false)
    (hnm : cacheGet cache var = none)
    (hg : graphGet g var = none) :
    (linkInternal g vis vfuel (fuel + 1) (.Variable var) stack cache
      = varFinish var (linkInternal g vis vfuel fuel (unknownNoValue var)
          (var :: stack) cache)) ∧
    ((linkInternal g idVisitor (vfuel + 1) (fuel + 2) (.Variable var) stack cache).res
      = .ok (unknownNoValue var, some [])) := by
  have hnmem : var ∉ stack := fun hmm =>
    Bool.false_ne_true (hnc.symm.trans (List.elem_iff.mpr hmm))
  constructor
  · simp [linkInternal, hnmem, hnm, hg]
  · have hstep : linkInternal g idVisitor (vfuel + 1) (fuel + 2) (.Variable var) stack cache
        = varFinish var (linkInternal g idVisitor (vfuel + 1) (fuel + 1) (unknownNoValue var)
            (var :: stack) cache) := by
      simp [linkInternal, hnmem, hnm, hg]
    rw [hstep]
    have hinner : linkInternal g idVisitor (vfuel + 1) (fuel + 1) (unknownNoValue var)
        (var :: stack) cache
        = ⟨.ok (unknownNoValue var, none), var :: stack, cache, []⟩ := by
      simp [linkInternal, unknownNoValue, compositeStep, childrenOf, linkChildren,
        withChildren, visitorLoop, idVisitor]
    rw [hinner]
    simp [varFinish]

/-- Witness for C7: the identity z is absent from the one-entry graph
x -> 5. -/
theorem c7_witness :
    (linkInternal graphX5 idVisitor 1 2 (.Variable "z") [] []).res
      = .ok (unknownNoValue "z", some []) :=
  (c7_missing_binding graphX5 idVisitor 0 0 "z" [] [] rfl rfl rfl).2

/-- Claim C8: over the graph x -> Variable y, y -> Constant 5, with the
identity visitor, link on Variable x returns Constant 5 and the cache
afterwards contains x -> Constant 5 and y -> Constant 5. -/
theorem c8_chain_scenario :
    (link graphXY idVisitor 1 4 (.Variable "x") []).1 = .ok (.Constant 5) ∧
    cacheGet (link graphXY idVisitor 1 4 (.Variable "x") []).2 "x" = some (.Constant 5) ∧
    cacheGet (link graphXY idVisitor 1 4 (.Variable "x") []).2 "y" = some (.Constant 5) :=
  ⟨rfl, rfl, rfl⟩

/-- Claim C9: under the loan discipline modelled from the spec (the fan-out
hands the tracker to one child at a time), every successful call checks the
tracker back in exactly as it checked it out — push/pop is balanced — both
for a single resolution and for a whole child fan-out, so each child of a
composite node receives the full accumulated ancestor-path state. -/
theorem c9_tracker_loan (g : VarGraph) (vis : Visitor) (vfuel fuel : Nat) :
    (∀ (val : JsValue) (stack : List Id) (cache : LinkCache) p,
      (linkInternal g vis vfuel fuel val stack cache).res = .ok p →
      (linkInternal g vis vfuel fuel val stack cache).stack = stack) ∧
    (∀ (cs : List JsValue) (stack : List Id) (cache : LinkCache) q,
      (linkChildren (fun c st ca => linkInternal g vis vfuel fuel c st ca)
        cs stack cache).res = .ok q →
      (linkChildren (fun c st ca => linkInternal g vis vfuel fuel c st ca)
        cs stack cache).stack = stack) :=
  ⟨fun val stack cache p h => stack_preserved g vis vfuel fuel val stack cache p h,
   fun cs stack cache q h =>
     linkChildren_stack_eq _ (fun c st ca p hp => stack_preserved g vis vfuel fuel c st ca p hp)
       cs stack cache q h⟩

/-- Witness for C9 on the chain graph x -> y -> 5. -/
theorem c9_witness :
    (linkInternal graphXY idVisitor 1 4 (.Variable "x") [] []).stack = [] :=
  (c9_tracker_loan graphXY idVisitor 1 4).1 (.Variable "x") [] []
    (.Constant 5, some []) rfl

/-- Claim C10: the variable branch never reports "no replaced-reference
set" — every successful variable resolution reports some set (possibly
empty) — and consequently the child fan-out marks a variable child as
modified whenever it resolves successfully, whatever its resolved value. -/
theorem c10_variable_always_modified (g : VarGraph) (vis : Visitor) (vfuel fuel : Nat)
    (var : Id) :
    (∀ (stack : List Id) (cache : LinkCache) (v : JsValue) (r : Option (List Id)),
      (linkInternal g vis vfuel fuel (.Variable var) stack cache).res = .ok (v, r) →
      r.isSome = true) ∧
    (∀ (cs : List JsValue) (stack : List Id) (cache : LinkCache)
        (vs : List JsValue) (m : Bool) (rcr : List Id),
      (linkChildren (fun c st ca => linkInternal g vis vfuel fuel c st ca)
        (.Variable var :: cs) stack cache).res = .ok (vs, m, rcr) →
      m = true) := by
  constructor
  · intro stack cache v r h
    exact var_res_isSome g vis vfuel fuel var stack cache v r h
  · intro cs stack cache vs m rcr h
    simp only [linkChildren] at h
    cases hout : (linkInternal g vis vfuel fuel (.Variable var) stack cache).res with
    | error e => simp [hout] at h
    | ok p =>
      obtain ⟨v, r⟩ := p
      have hsome := var_res_isSome g vis vfuel fuel var stack cache v r hout
      cases hrest : (linkChildren (fun c st ca => linkInternal g vis vfuel fuel c st ca)
          cs (linkInternal g vis vfuel fuel (.Variable var) stack cache).stack
          (linkInternal g vis vfuel fuel (.Variable var) stack cache).cache).res with
      | error e => simp [hout, hrest] at h
      | ok q =>
        obtain ⟨vs0, m0, rcr0⟩ := q
        simp only [hout, hrest, Except.ok.injEq, Prod.mk.injEq] at h
        obtain ⟨hvs, hm, hrcr⟩ := h
        rw [← hm, hsome]
        simp

/-- Witness for C10 on the one-entry graph x -> 5. -/
theorem c10_witness : Option.isSome (some ([] : List Id)) = true :=
  (c10_variable_always_modified graphX5 idVisitor 1 2 "x").1 [] [] (.Constant 5)
    (some []) rfl

end Linker
